import Mathlib

/-!
Verification of the geometry core of `straight_line_zags.py`: the circle
point sampler, the squircle ring builder, the triangular offset-schedule
computation inside `AppWindow.redraw`, and the full-pattern ring loop.

Machine floats are modelled by exact reals.  Python exceptions
(the IndexError reachable in `squircle` when `segments = 0`, and the numpy
shape-mismatch error reachable in the schedule slice assignments) are
modelled by `Option`: `none` is an escaping exception.
-/

open Real

namespace SLZ

/-- Python float modulus `x % y`: for `y > 0` the result lies in `[0, y)`.
Embeds the reduction `angle % (2 * np.pi)` at line 30 of the source. -/
noncomputable def fmod (x y : ℝ) : ℝ :=
  x - y * ⌊x / y⌋

/-- The `circle` function (source lines 26-40): reduce the angle modulo 2π,
set `x = cos(angle) * radius`, and take `y = ±sqrt(radius² - x²)` with the
sign chosen by whether the reduced angle is below π. -/
noncomputable def circle (radius angle : ℝ) : ℝ × ℝ :=
  let a := fmod angle (2 * π)
  if a < π then
    (Real.cos a * radius, Real.sqrt (radius ^ 2 - (Real.cos a * radius) ^ 2))
  else
    (Real.cos a * radius, -Real.sqrt (radius ^ 2 - (Real.cos a * radius) ^ 2))

/-- Modelled after the spec of §4.1: the mathematically equivalent direct form
`(radius·cos(angle), radius·sin(angle))` that the spec says an implementer may
use instead.  To be compared with `circle` (claim C5). -/
noncomputable def circleSpec (radius angle : ℝ) : ℝ × ℝ :=
  (radius * Real.cos angle, radius * Real.sin angle)

/-- `np.linspace a b n`: `n` evenly spaced samples from `a` to `b`, both ends
included (step `(b - a)/(n - 1)`); for `n = 1` numpy returns just `[a]`. -/
noncomputable def linspace (a b : ℝ) (n : ℕ) : List ℝ :=
  if n = 1 then [a]
  else (List.range n).map (fun (k : ℕ) => a + (b - a) * (k : ℝ) / ((n : ℝ) - 1))

/-- The `squircle` function (source lines 43-63).  The loop enumerates
`np.linspace(angle_offset, 2π + angle_offset, segments + 1)` and breaks at
`idx >= segments`, i.e. it uses the first `segments` samples; even indices
are placed on the inner circle `radius - width/2`, odd ones on the outer
circle `radius + width/2`.  The source accumulates parallel `x` and `y`
lists; we keep the list of `(x, y)` pairs.  The final `x.append(x[0])` /
`y.append(y[0])` closure raises IndexError when no point was generated,
which is the `none` branch. -/
noncomputable def squircle (radius width angle_offset : ℝ) (segments : ℕ) :
    Option (List (ℝ × ℝ)) :=
  let angles := (linspace angle_offset (2 * π + angle_offset) (segments + 1)).take segments
  let pts := angles.enum.map (fun p =>
    if p.1 % 2 = 0 then circle (radius - width / 2) p.2
    else circle (radius + width / 2) p.2)
  match pts with
  | [] => none
  | p :: rest => some ((p :: rest) ++ [p])

/-- The vertex of index `k` produced by the `squircle` loop: the sample angle
is `angle_offset + 2πk/segments`; even `k` lies on the inner circle, odd `k`
on the outer circle. -/
noncomputable def squirclePoint (radius width angle_offset : ℝ) (segments k : ℕ) : ℝ × ℝ :=
  if k % 2 = 0 then
    circle (radius - width / 2) (angle_offset + 2 * π * (k : ℝ) / (segments : ℝ))
  else
    circle (radius + width / 2) (angle_offset + 2 * π * (k : ℝ) / (segments : ℝ))

/-- The offset-schedule computation of `AppWindow.redraw` (source lines
200-203):

    offsets = np.zeros((rot_rings - 2,))
    offsets[0:rot_rings // 2] = np.linspace(0, rot_offset, rot_rings // 2)
    offsets[rot_rings // 2:] = np.linspace(rot_offset, 0, rot_rings // 2)[1:-1]

`rot_rings` below is the internal rotation period (`vals['rot_rings'] * 2`
in the source).  numpy raises when `rot_rings - 2 < 0`, when the first
slice (of length `min h (rot_rings - 2)` with `h = rot_rings / 2`) cannot
absorb the `h` samples, or when the second slice length differs from the
trimmed ramp length; those shape errors are the `none` branches.  When
every shape matches, the array is exactly the first ramp followed by the
trimmed second ramp. -/
noncomputable def offsetSchedule (rot_rings : ℕ) (rot_offset : ℝ) :
    Option (List ℝ) :=
  if rot_rings < 2 then none
  else
    let n := rot_rings - 2
    let h := rot_rings / 2
    let first := linspace 0 rot_offset h
    let second := ((linspace rot_offset 0 h).drop 1).dropLast
    if h ≤ n ∧ n - h = second.length then some (first ++ second) else none

/-- The ring loop of `AppWindow.redraw` (source lines 211-217), abstracted
over the sampled colour gradient `grad` (the shell builds `cmap` from the
gradient editor; the core only samples it at `bidx / num_rings`).  The
parameters are the local variables of `redraw` after line 198, i.e.
`num_bumps` and `rot_rings` are already doubled.  Each ring `bidx` plots
`squircle(1 + rad_offset*bidx, bump_size, offsets[bidx % (rot_rings - 2)],
num_bumps)` in colour `cmap(bidx / num_rings)`; since the schedule array is
allocated as `np.zeros((rot_rings - 2,))`, its length is `rot_rings - 2`
whenever it was built, so the source's modulus is written below as
`bidx % offsets.length`. -/
noncomputable def redrawCore {C : Type} (grad : ℝ → C)
    (num_bumps num_rings rot_rings : ℕ)
    (rot_offset rad_offset bump_size : ℝ) :
    Option (List (List (ℝ × ℝ) × C)) :=
  match offsetSchedule rot_rings rot_offset with
  | none => none
  | some offsets =>
      (List.range num_rings).mapM (fun (bidx : ℕ) =>
        (squircle (1 + rad_offset * bidx) bump_size
            (offsets.getD (bidx % offsets.length) 0) num_bumps).map
          (fun pts => (pts, grad ((bidx : ℝ) / (num_rings : ℝ)))))

/-- The widget values read by `AppWindow.redraw` from the control panel
(source lines 130-141 and 186). -/
structure Vals where
  num_bumps : ℕ
  num_rings : ℕ
  rot_rings : ℕ
  rot_offset : ℝ
  rad_offset : ℝ
  bump_size : ℝ

/-- `AppWindow.redraw` on the widget values (source lines 193-217): before
the geometry runs, line 193 doubles the bump count and line 195 doubles the
rotation-ring count. -/
noncomputable def redraw {C : Type} (grad : ℝ → C) (v : Vals) :
    Option (List (List (ℝ × ℝ) × C)) :=
  redrawCore grad (v.num_bumps * 2) v.num_rings (v.rot_rings * 2)
    v.rot_offset v.rad_offset v.bump_size

/-- The full-pattern generator in the vocabulary of the spec (§4.4): the
Parameter Set fields `bump_count`, `ring_count`, `rotation_period` name the
internal quantities of `redraw`, where the segment count handed to the
squircle builder is `bump_count * 2`. -/
noncomputable def generatePattern {C : Type} (grad : ℝ → C)
    (bump_count ring_count rotation_period : ℕ)
    (rotation_offset radial_step bump_width : ℝ) :
    Option (List (List (ℝ × ℝ) × C)) :=
  redrawCore grad (bump_count * 2) ring_count rotation_period
    rotation_offset radial_step bump_width

/-- One ring of the pattern, in closed form: the closed squircle polyline at
radius `1 + rs * bidx` with the scheduled angular offset, paired with the
gradient sample at `bidx / nr`. -/
noncomputable def ringOf {C : Type} (grad : ℝ → C) (nb nr : ℕ) (rs bw : ℝ)
    (offsets : List ℝ) (bidx : ℕ) : List (ℝ × ℝ) × C :=
  ((List.range nb).map (squirclePoint (1 + rs * (bidx : ℝ)) bw
      (offsets.getD (bidx % offsets.length) 0) nb) ++
    [squirclePoint (1 + rs * (bidx : ℝ)) bw
      (offsets.getD (bidx % offsets.length) 0) nb 0],
   grad ((bidx : ℝ) / (nr : ℝ)))

/-! Helper lemmas about `fmod` (Python float modulus). -/

lemma two_pi_pos : (0 : ℝ) < 2 * π := by positivity

lemma fmod_eq_fract (x : ℝ) {y : ℝ} (hy : y ≠ 0) :
    fmod x y = y * Int.fract (x / y) := by
  unfold fmod Int.fract
  field_simp

lemma fmod_nonneg (x : ℝ) {y : ℝ} (hy : 0 < y) : 0 ≤ fmod x y := by
  rw [fmod_eq_fract x hy.ne']
  exact mul_nonneg hy.le (Int.fract_nonneg _)

lemma fmod_lt (x : ℝ) {y : ℝ} (hy : 0 < y) : fmod x y < y := by
  rw [fmod_eq_fract x hy.ne']
  calc y * Int.fract (x / y) < y * 1 :=
        mul_lt_mul_of_pos_left (Int.fract_lt_one _) hy
    _ = y := mul_one y

lemma cos_fmod (x : ℝ) : Real.cos (fmod x (2 * π)) = Real.cos x := by
  have h : fmod x (2 * π) = x + ((-⌊x / (2 * π)⌋ : ℤ) : ℝ) * (2 * π) := by
    unfold fmod
    push_cast
    ring
  rw [h, Real.cos_add_int_mul_two_pi]

lemma sin_fmod (x : ℝ) : Real.sin (fmod x (2 * π)) = Real.sin x := by
  have h : fmod x (2 * π) = x + ((-⌊x / (2 * π)⌋ : ℤ) : ℝ) * (2 * π) := by
    unfold fmod
    push_cast
    ring
  rw [h, Real.sin_add_int_mul_two_pi]

/-! The square root in `circle` evaluates to `radius * |sin|`, and the sign
branch turns it into `radius * sin` of the reduced angle. -/

lemma sqrt_circle_aux (radius a : ℝ) (hr : 0 ≤ radius) :
    Real.sqrt (radius ^ 2 - (Real.cos a * radius) ^ 2) = radius * |Real.sin a| := by
  have h1 : radius ^ 2 - (Real.cos a * radius) ^ 2 = (radius * Real.sin a) ^ 2 := by
    rw [mul_pow, mul_pow, Real.sin_sq]
    ring
  rw [h1, Real.sqrt_sq_eq_abs, abs_mul, abs_of_nonneg hr]

lemma circle_eq_cos_sin (radius angle : ℝ) (hr : 0 ≤ radius) :
    circle radius angle = (radius * Real.cos angle, radius * Real.sin angle) := by
  simp only [circle]
  set a := fmod angle (2 * π) with ha
  have ha0 : 0 ≤ a := fmod_nonneg angle two_pi_pos
  have ha2 : a < 2 * π := fmod_lt angle two_pi_pos
  have hcos : Real.cos a = Real.cos angle := cos_fmod angle
  have hsin : Real.sin a = Real.sin angle := sin_fmod angle
  by_cases hlt : a < π
  · rw [if_pos hlt]
    have hs : 0 ≤ Real.sin a := Real.sin_nonneg_of_nonneg_of_le_pi ha0 hlt.le
    rw [sqrt_circle_aux radius a hr, abs_of_nonneg hs, hcos, hsin]
    simp only [Prod.mk.injEq]
    exact ⟨mul_comm _ _, trivial⟩
  · rw [if_neg hlt]
    push_neg at hlt
    have h2 : Real.sin (a - π) = -Real.sin a := Real.sin_sub_pi a
    have h3 : 0 ≤ Real.sin (a - π) :=
      Real.sin_nonneg_of_nonneg_of_le_pi (by linarith) (by linarith)
    have hs : Real.sin a ≤ 0 := by rw [h2] at h3; linarith
    rw [sqrt_circle_aux radius a hr, abs_of_nonpos hs, hcos, hsin]
    simp only [Prod.mk.injEq]
    constructor <;> ring

/-! Helper lemmas about `linspace`. -/

lemma linspace_length (a b : ℝ) (n : ℕ) : (linspace a b n).length = n := by
  unfold linspace
  split <;> simp_all

lemma linspace_getD (a b : ℝ) {n : ℕ} (hn : n ≠ 1) {k : ℕ} (hk : k < n) :
    (linspace a b n).getD k 0 = a + (b - a) * k / ((n : ℝ) - 1) := by
  unfold linspace
  rw [if_neg hn]
  rw [List.getD_eq_getElem _ _ (by simpa using hk)]
  simp

/-! Closed form of the squircle loop. -/

lemma enum_map_range {α : Type} (g : ℕ → α) (n : ℕ) :
    ((List.range n).map g).enum = (List.range n).map (fun k => (k, g k)) := by
  apply List.ext_getElem
  · simp
  · intro i h1 h2
    simp [List.enum_eq_enumFrom, List.getElem_enumFrom]

lemma squircle_angles (a : ℝ) {n : ℕ} (hn : 1 ≤ n) :
    (linspace a (2 * π + a) (n + 1)).take n =
      (List.range n).map (fun (k : ℕ) => a + 2 * π * (k : ℝ) / (n : ℝ)) := by
  unfold linspace
  rw [if_neg (by omega), List.range_succ, List.map_append, List.take_left' (by simp)]
  refine List.map_congr_left fun k hk => ?_
  push_cast
  ring

lemma squircle_eq_some (radius width angle_offset : ℝ) {n : ℕ} (hn : 1 ≤ n) :
    squircle radius width angle_offset n =
      some ((List.range n).map (squirclePoint radius width angle_offset n) ++
        [squirclePoint radius width angle_offset n 0]) := by
  simp only [squircle, squircle_angles angle_offset hn, enum_map_range, List.map_map]
  have hmap : (List.range n).map ((fun p : ℕ × ℝ =>
        if p.1 % 2 = 0 then circle (radius - width / 2) p.2
        else circle (radius + width / 2) p.2) ∘
          (fun k : ℕ => (k, angle_offset + 2 * π * (k : ℝ) / (n : ℝ)))) =
      (List.range n).map (squirclePoint radius width angle_offset n) :=
    List.map_congr_left fun k _ => by simp [Function.comp, squirclePoint]
  rw [hmap]
  obtain ⟨m, rfl⟩ : ∃ m, n = m + 1 := ⟨n - 1, by omega⟩
  rw [List.range_succ_eq_map, List.map_cons]

/-- With `segments = 0` the loop in `squircle` breaks before appending any
point and the trailing `x.append(x[0])` raises IndexError. -/
lemma squircle_zero (radius width angle_offset : ℝ) :
    squircle radius width angle_offset 0 = none := by
  simp [squircle]

/-! Closed form of the offset schedule. -/

lemma offsetSchedule_eq_some {p : ℕ} (ro : ℝ) (hp2 : p % 2 = 0) (hp4 : 4 ≤ p) :
    offsetSchedule p ro =
      some (linspace 0 ro (p / 2) ++ ((linspace ro 0 (p / 2)).drop 1).dropLast) := by
  unfold offsetSchedule
  rw [if_neg (by omega)]
  have hlen : (((linspace ro 0 (p / 2)).drop 1).dropLast).length = p / 2 - 2 := by
    rw [List.length_dropLast, List.length_drop, linspace_length]
    omega
  rw [if_pos ⟨by omega, by rw [hlen]; omega⟩]

lemma offsetSchedule_length {p : ℕ} (ro : ℝ) (hp2 : p % 2 = 0) (hp4 : 4 ≤ p) :
    (linspace 0 ro (p / 2) ++ ((linspace ro 0 (p / 2)).drop 1).dropLast).length
      = p - 2 := by
  rw [List.length_append, List.length_dropLast, List.length_drop,
    linspace_length, linspace_length]
  omega

lemma linspace_getElem (a b : ℝ) {n : ℕ} (hn : n ≠ 1) {k : ℕ}
    (hk : k < (linspace a b n).length) :
    (linspace a b n)[k] = a + (b - a) * (k : ℝ) / ((n : ℝ) - 1) := by
  have h1 : linspace a b n =
      (List.range n).map (fun (k : ℕ) => a + (b - a) * (k : ℝ) / ((n : ℝ) - 1)) := by
    unfold linspace
    rw [if_neg hn]
  simp [h1]

lemma schedule_getD_lo (ro : ℝ) {h : ℕ} (hh : 2 ≤ h) {i : ℕ} (hi : i < h) :
    (linspace 0 ro h ++ ((linspace ro 0 h).drop 1).dropLast).getD i 0
      = ro * (i : ℝ) / ((h : ℝ) - 1) := by
  rw [List.getD_append _ _ _ _ (by rw [linspace_length]; exact hi)]
  rw [linspace_getD 0 ro (by omega) hi]
  ring

lemma schedule_getD_hi (ro : ℝ) {h : ℕ} (hh : 2 ≤ h) {i : ℕ}
    (hi1 : h ≤ i) (hi2 : i < 2 * h - 2) :
    (linspace 0 ro h ++ ((linspace ro 0 h).drop 1).dropLast).getD i 0
      = ro * ((2 * h - 2 - i : ℕ) : ℝ) / ((h : ℝ) - 1) := by
  obtain ⟨j, rfl⟩ : ∃ j, i = h + j := ⟨i - h, by omega⟩
  have hj : j < h - 2 := by omega
  have hne : ((h : ℝ) - 1) ≠ 0 := by
    have h2 : (2 : ℝ) ≤ (h : ℝ) := by exact_mod_cast hh
    linarith
  rw [List.getD_append_right _ _ _ _ (by rw [linspace_length]; omega)]
  rw [linspace_length]
  have hidx : h + j - h = j := by omega
  rw [hidx]
  have hlen : (((linspace ro 0 h).drop 1).dropLast).length = h - 2 := by
    rw [List.length_dropLast, List.length_drop, linspace_length]
    omega
  rw [List.getD_eq_getElem _ _ (by rw [hlen]; exact hj)]
  rw [List.getElem_dropLast, List.getElem_drop]
  rw [linspace_getElem ro 0 (by omega) (by rw [linspace_length]; omega)]
  have hcast : ((2 * h - 2 - (h + j) : ℕ) : ℝ) = (h : ℝ) - 2 - (j : ℝ) := by
    have he : (2 * h - 2 - (h + j) : ℕ) = h - 2 - j := by omega
    rw [he, Nat.cast_sub (by omega), Nat.cast_sub (by omega)]
    push_cast
    ring
  rw [hcast]
  push_cast
  field_simp
  ring

/-! Closed form of a successful run of the ring loop. -/

lemma mapM_option_map {α β : Type} (F : α → Option β) (f : α → β) (l : List α)
    (h : ∀ x ∈ l, F x = some (f x)) : l.mapM F = some (l.map f) := by
  induction l with
  | nil => rfl
  | cons x xs ih =>
    rw [List.mapM_cons, h x (List.mem_cons_self x xs),
      ih (fun y hy => h y (List.mem_cons_of_mem x hy))]
    rfl

lemma redrawCore_eq_some {C : Type} (grad : ℝ → C) {nb : ℕ} (nr : ℕ) {p : ℕ}
    (ro rs bw : ℝ) (hnb : 1 ≤ nb)
    {offsets : List ℝ} (hoff : offsetSchedule p ro = some offsets) :
    redrawCore grad nb nr p ro rs bw =
      some ((List.range nr).map (ringOf grad nb nr rs bw offsets)) := by
  unfold redrawCore
  rw [hoff]
  apply mapM_option_map
  intro bidx _
  rw [squircle_eq_some _ _ _ hnb]
  rfl

/-! Schedule computations at the degenerate periods used by claim C3. -/

lemma offsetSchedule_two (ro : ℝ) : offsetSchedule 2 ro = none := by
  unfold offsetSchedule
  norm_num

lemma offsetSchedule_three (ro : ℝ) : offsetSchedule 3 ro = some [0] := by
  unfold offsetSchedule
  norm_num [linspace]

/-- Full closed form of the offset schedule for an even period `p ≥ 4`:
length `p - 2`, rising ramp on `[0, p/2)`, peak `ro` at index `p/2 - 1`,
falling ramp on `[p/2, p - 2)`. -/
lemma offsetSchedule_closed (p : ℕ) (ro : ℝ) (hp2 : p % 2 = 0) (hp4 : 4 ≤ p) :
    ∃ l, offsetSchedule p ro = some l ∧
      l.length = p - 2 ∧
      (∀ i : ℕ, i < p / 2 → l.getD i 0 = ro * (i : ℝ) / (((p / 2 : ℕ) : ℝ) - 1)) ∧
      l.getD 0 0 = 0 ∧
      l.getD (p / 2 - 1) 0 = ro ∧
      (∀ i : ℕ, p / 2 ≤ i → i < p - 2 →
        l.getD i 0 = ro * ((p - 2 - i : ℕ) : ℝ) / (((p / 2 : ℕ) : ℝ) - 1)) := by
  have hh : 2 ≤ p / 2 := by omega
  have hc2 : (2 : ℝ) ≤ ((p / 2 : ℕ) : ℝ) := by exact_mod_cast hh
  have hc : ((p / 2 : ℕ) : ℝ) - 1 ≠ 0 := by linarith
  refine ⟨_, offsetSchedule_eq_some ro hp2 hp4, offsetSchedule_length ro hp2 hp4,
    fun i hi => schedule_getD_lo ro hh hi, ?_, ?_, fun i hi1 hi2 => ?_⟩
  · rw [schedule_getD_lo ro hh (by omega)]
    simp
  · rw [schedule_getD_lo ro hh (by omega), Nat.cast_sub (by omega)]
    push_cast
    rw [mul_div_assoc, div_self hc, mul_one]
  · have h2 : i < 2 * (p / 2) - 2 := by omega
    rw [schedule_getD_hi ro hh hi1 h2]
    have he : (2 * (p / 2) - 2 - i : ℕ) = (p - 2 - i : ℕ) := by omega
    rw [he]

lemma ramp_bounds {ro c t : ℝ} (hro : 0 ≤ ro) (hc : 0 < c) (ht0 : 0 ≤ t)
    (ht : t ≤ c) : 0 ≤ ro * t / c ∧ ro * t / c ≤ ro := by
  constructor
  · positivity
  · rw [div_le_iff₀ hc]
    nlinarith

/-- All values of the closed-form schedule lie in `[0, ro]` when `ro ≥ 0`. -/
lemma offsetSchedule_bounds (p : ℕ) (ro : ℝ) (hp2 : p % 2 = 0) (hp4 : 4 ≤ p)
    (hro : 0 ≤ ro) {l : List ℝ} (hl : offsetSchedule p ro = some l)
    {i : ℕ} (hi : i < l.length) : 0 ≤ l.getD i 0 ∧ l.getD i 0 ≤ ro := by
  obtain ⟨l2, hl2, hlen, hlo, h0, hpk, hhi⟩ := offsetSchedule_closed p ro hp2 hp4
  rw [hl] at hl2
  obtain rfl : l = l2 := Option.some.inj hl2
  have hh : 2 ≤ p / 2 := by omega
  have hc2 : (2 : ℝ) ≤ ((p / 2 : ℕ) : ℝ) := by exact_mod_cast hh
  have hcpos : (0 : ℝ) < ((p / 2 : ℕ) : ℝ) - 1 := by linarith
  rw [hlen] at hi
  by_cases hcase : i < p / 2
  · rw [hlo i hcase]
    refine ramp_bounds hro hcpos (by positivity) ?_
    have : ((i + 1 : ℕ) : ℝ) ≤ ((p / 2 : ℕ) : ℝ) := by
      exact_mod_cast (by omega : i + 1 ≤ p / 2)
    push_cast at this
    linarith
  · rw [hhi i (by omega) hi]
    refine ramp_bounds hro hcpos (by positivity) ?_
    have : ((p - 2 - i + 1 : ℕ) : ℝ) ≤ ((p / 2 : ℕ) : ℝ) := by
      exact_mod_cast (by omega : p - 2 - i + 1 ≤ p / 2)
    push_cast at this
    linarith

/-- C5: for every radius ≥ 0 and every real angle, the sqrt-with-sign-branch
sampler `circle` returns exactly `(radius·cos angle, radius·sin angle)`, the
direct form `circleSpec` the spec declares mathematically equivalent. -/
theorem claim_C5 (radius angle : ℝ) (hr : 0 ≤ radius) :
    circle radius angle = circleSpec radius angle :=
  circle_eq_cos_sin radius angle hr

theorem claim_C5_witness :
    (0 : ℝ) ≤ 1 ∧ circle 1 0 = circleSpec 1 0 :=
  ⟨zero_le_one, claim_C5 1 0 zero_le_one⟩

/-- C9: the squircle builder already works for `segments ≥ 1` (weaker than
the spec's stated `≥ 2`): it returns a polyline of `segments + 1` points
whose last point equals the first; and the closure step fails (IndexError,
modelled `none`) exactly when `segments = 0`. -/
theorem claim_C9 (radius width angle_offset : ℝ) (n : ℕ) :
    (1 ≤ n → ∃ pts, squircle radius width angle_offset n = some pts ∧
      pts.length = n + 1 ∧ pts.head? = pts.getLast?) ∧
    (squircle radius width angle_offset n = none ↔ n = 0) := by
  constructor
  · intro hn
    refine ⟨_, squircle_eq_some radius width angle_offset hn, by simp, ?_⟩
    obtain ⟨m, rfl⟩ : ∃ m, n = m + 1 := ⟨n - 1, by omega⟩
    rw [List.range_succ_eq_map, List.map_cons, List.getLast?_concat]
    rfl
  · constructor
    · intro hnone
      by_contra h0
      rw [squircle_eq_some radius width angle_offset (by omega)] at hnone
      exact Option.noConfusion hnone
    · intro h0
      subst h0
      exact squircle_zero radius width angle_offset

theorem claim_C9_witness :
    (1 : ℕ) ≤ 2 ∧
    (∃ pts, squircle 1 ((1 : ℝ)/2) 0 2 = some pts ∧
      pts.length = 2 + 1 ∧ pts.head? = pts.getLast?) ∧
    squircle 1 ((1 : ℝ)/2) 0 0 = none :=
  ⟨by decide, (claim_C9 1 ((1 : ℝ)/2) 0 2).1 (by decide),
    (claim_C9 1 ((1 : ℝ)/2) 0 0).2.mpr rfl⟩

/-- C8: the generator is deterministic and stateless — it is a pure function
of its parameters and of the sampled gradient, so two calls with pointwise
identical gradients and identical Parameter Sets return identical polylines
and identical per-ring colours. -/
theorem claim_C8 {C : Type} (g1 g2 : ℝ → C) (bc rc p : ℕ) (ro rs bw : ℝ)
    (h : ∀ x, g1 x = g2 x) :
    generatePattern g1 bc rc p ro rs bw = generatePattern g2 bc rc p ro rs bw := by
  rw [funext h]

theorem claim_C8_witness :
    (∀ x : ℝ, (fun _ : ℝ => (0 : ℝ)) x = (fun _ : ℝ => (0 : ℝ)) x) ∧
    generatePattern (fun _ : ℝ => (0 : ℝ)) 4 2 4 0 (1/10) (1/10) =
      generatePattern (fun _ : ℝ => (0 : ℝ)) 4 2 4 0 (1/10) (1/10) :=
  ⟨fun _ => rfl, claim_C8 _ _ 4 2 4 0 (1/10) (1/10) (fun _ => rfl)⟩

/-- C3 (code bug): the claim — and spec §7 — require a descriptive
validation error for invalid parameters, but the code performs no
validation.  With internal rotation period 2 the schedule slice assignment
fails with a numpy shape error that escapes the generator (modelled `none`,
never a validation error), and with internal period 3 nothing fails at all:
the schedule silently evaluates to `[0]`.  Likewise `ring_count = 0` or
`bump_count = 0` never reach a validation check. -/
theorem claim_C3 :
    offsetSchedule 2 ((1 : ℝ)/10) = none ∧
    generatePattern (fun x : ℝ => x) 2 1 2 ((1 : ℝ)/10) (1/10) (1/10) = none ∧
    offsetSchedule 3 ((1 : ℝ)/10) = some [0] := by
  refine ⟨offsetSchedule_two _, ?_, offsetSchedule_three _⟩
  unfold generatePattern redrawCore
  rw [offsetSchedule_two]

/-- C2: for every even period ≥ 4, the schedule has exactly `period - 2`
entries; indices `[0, period/2)` ramp linearly from 0 up to `ro` with both
endpoints included (entry 0 is 0 and entry `period/2 - 1` is `ro`), and
indices `[period/2, period - 2)` ramp linearly back down, holding the values
`ro·(period-2-i)/(period/2 - 1)` — the ramp with its own endpoints (the peak
and the zero) excluded. -/
theorem claim_C2 (p : ℕ) (ro : ℝ) (hp2 : p % 2 = 0) (hp4 : 4 ≤ p) :
    ∃ l, offsetSchedule p ro = some l ∧
      l.length = p - 2 ∧
      (∀ i : ℕ, i < p / 2 → l.getD i 0 = ro * (i : ℝ) / (((p / 2 : ℕ) : ℝ) - 1)) ∧
      l.getD 0 0 = 0 ∧
      l.getD (p / 2 - 1) 0 = ro ∧
      (∀ i : ℕ, p / 2 ≤ i → i < p - 2 →
        l.getD i 0 = ro * ((p - 2 - i : ℕ) : ℝ) / (((p / 2 : ℕ) : ℝ) - 1)) :=
  offsetSchedule_closed p ro hp2 hp4

theorem claim_C2_witness :
    4 % 2 = 0 ∧ 4 ≤ 4 ∧
    (∃ l, offsetSchedule 4 (1 : ℝ) = some l ∧
      l.length = 4 - 2 ∧
      (∀ i : ℕ, i < 4 / 2 →
        l.getD i 0 = 1 * (i : ℝ) / (((4 / 2 : ℕ) : ℝ) - 1)) ∧
      l.getD 0 0 = 0 ∧
      l.getD (4 / 2 - 1) 0 = 1 ∧
      (∀ i : ℕ, 4 / 2 ≤ i → i < 4 - 2 →
        l.getD i 0 = 1 * ((4 - 2 - i : ℕ) : ℝ) / (((4 / 2 : ℕ) : ℝ) - 1))) :=
  ⟨by decide, by decide, claim_C2 4 1 (by decide) (by decide)⟩

/-- C6: for an even period ≥ 4 and `ro ≥ 0`, all schedule values lie in
`[0, ro]`, the first entry is 0, and the maximum value `ro` is attained at
the midpoint index `period/2 - 1` (the second-half formula of C2 makes the
entries nearest the end proportional to their distance from the end, which
is the sense in which they approach 0). -/
theorem claim_C6 (p : ℕ) (ro : ℝ) (hp2 : p % 2 = 0) (hp4 : 4 ≤ p)
    (hro : 0 ≤ ro) :
    ∃ l, offsetSchedule p ro = some l ∧
      (∀ i : ℕ, i < l.length → 0 ≤ l.getD i 0 ∧ l.getD i 0 ≤ ro) ∧
      l.getD 0 0 = 0 ∧
      l.getD (p / 2 - 1) 0 = ro ∧
      (∀ i : ℕ, i < l.length → l.getD i 0 ≤ l.getD (p / 2 - 1) 0) := by
  obtain ⟨l, hl, hlen, hlo, h0, hpk, hhi⟩ := offsetSchedule_closed p ro hp2 hp4
  refine ⟨l, hl, fun i hi => offsetSchedule_bounds p ro hp2 hp4 hro hl hi,
    h0, hpk, fun i hi => ?_⟩
  rw [hpk]
  exact (offsetSchedule_bounds p ro hp2 hp4 hro hl hi).2

theorem claim_C6_witness :
    4 % 2 = 0 ∧ 4 ≤ 4 ∧ (0 : ℝ) ≤ 1 ∧
    (∃ l, offsetSchedule 4 (1 : ℝ) = some l ∧
      (∀ i : ℕ, i < l.length → 0 ≤ l.getD i 0 ∧ l.getD i 0 ≤ 1) ∧
      l.getD 0 0 = 0 ∧
      l.getD (4 / 2 - 1) 0 = 1 ∧
      (∀ i : ℕ, i < l.length → l.getD i 0 ≤ l.getD (4 / 2 - 1) 0)) :=
  ⟨by decide, by decide, zero_le_one, claim_C6 4 1 (by decide) (by decide) zero_le_one⟩

/-- C4: for `n ≥ 2`, the squircle builder samples its first `n` points at the
equally spaced angles `angle_offset + k·(2π/n)` for `k < n` (the duplicate
endpoint angle is discarded), placing even `k` on the inner circle of radius
`r - w/2` and odd `k` on the outer circle of radius `r + w/2`, then appends a
copy of the first point as closure. -/
theorem claim_C4 (r w a : ℝ) (n : ℕ) (hn : 2 ≤ n) :
    ∃ pts, squircle r w a n = some pts ∧
      pts.length = n + 1 ∧
      (∀ k : ℕ, k < n → pts.getD k (0, 0) =
        (if k % 2 = 0 then circle (r - w / 2) (a + (k : ℝ) * (2 * π / (n : ℝ)))
         else circle (r + w / 2) (a + (k : ℝ) * (2 * π / (n : ℝ))))) ∧
      pts.getD n (0, 0) = pts.getD 0 (0, 0) := by
  have hn1 : 1 ≤ n := by omega
  refine ⟨_, squircle_eq_some r w a hn1, by simp, ?_, ?_⟩
  · intro k hk
    rw [List.getD_append _ _ _ _ (by simp [hk])]
    rw [List.getD_eq_getElem _ _ (by simp [hk])]
    simp only [List.getElem_map, List.getElem_range]
    unfold squirclePoint
    by_cases hpar : k % 2 = 0
    · rw [if_pos hpar, if_pos hpar]
      congr 1
      ring
    · rw [if_neg hpar, if_neg hpar]
      congr 1
      ring
  · have h0 : (((List.range n).map (squirclePoint r w a n)) ++
        [squirclePoint r w a n 0]).getD 0 (0, 0) = squirclePoint r w a n 0 := by
      rw [List.getD_append _ _ _ _ (by simp; omega)]
      rw [List.getD_eq_getElem _ _ (by simp; omega)]
      simp
    rw [List.getD_append_right _ _ _ _ (by simp), h0]
    simp

theorem claim_C4_witness :
    2 ≤ 2 ∧
    (∃ pts, squircle 1 ((1 : ℝ)/2) 0 2 = some pts ∧
      pts.length = 2 + 1 ∧
      (∀ k : ℕ, k < 2 → pts.getD k (0, 0) =
        (if k % 2 = 0 then
          circle (1 - (1 : ℝ)/2 / 2) (0 + (k : ℝ) * (2 * π / ((2 : ℕ) : ℝ)))
         else
          circle (1 + (1 : ℝ)/2 / 2) (0 + (k : ℝ) * (2 * π / ((2 : ℕ) : ℝ))))) ∧
      pts.getD 2 (0, 0) = pts.getD 0 (0, 0)) :=
  ⟨by decide, claim_C4 1 ((1 : ℝ)/2) 0 2 (by decide)⟩

/-- C10: the shell doubles both widget values before the geometry runs — the
segment count handed to the squircle builder is `num_bumps * 2` (always
even) and the internal rotation period is `rot_rings * 2`; with the widget
minimum `rot_rings ≥ 2` the internal period is an even integer ≥ 4, the
schedule exists with length `rot_rings*2 - 2 ≥ 2`, and in particular the
ring loop's modulus `bidx % len(offsets)` is never taken modulo zero. -/
theorem claim_C10 {C : Type} (grad : ℝ → C) (v : Vals) (hrot : 2 ≤ v.rot_rings) :
    (v.num_bumps * 2) % 2 = 0 ∧
    (v.rot_rings * 2) % 2 = 0 ∧
    4 ≤ v.rot_rings * 2 ∧
    redraw grad v = generatePattern grad v.num_bumps v.num_rings
      (v.rot_rings * 2) v.rot_offset v.rad_offset v.bump_size ∧
    ∃ l, offsetSchedule (v.rot_rings * 2) v.rot_offset = some l ∧
      l.length = v.rot_rings * 2 - 2 ∧ 2 ≤ l.length := by
  refine ⟨by omega, by omega, by omega, rfl, _,
    offsetSchedule_eq_some v.rot_offset (by omega) (by omega),
    offsetSchedule_length v.rot_offset (by omega) (by omega), ?_⟩
  rw [offsetSchedule_length v.rot_offset (by omega) (by omega)]
  omega

theorem claim_C10_witness :
    2 ≤ (Vals.mk 20 40 10 ((1 : ℝ)/10) (1/20) (1/10)).rot_rings ∧
    ((20 * 2) % 2 = 0 ∧
     (10 * 2) % 2 = 0 ∧
     4 ≤ 10 * 2 ∧
     redraw (fun x : ℝ => x) (Vals.mk 20 40 10 ((1 : ℝ)/10) (1/20) (1/10)) =
       generatePattern (fun x : ℝ => x) 20 40 (10 * 2) ((1 : ℝ)/10) (1/20) (1/10) ∧
     ∃ l, offsetSchedule (10 * 2) ((1 : ℝ)/10) = some l ∧
       l.length = 10 * 2 - 2 ∧ 2 ≤ l.length) :=
  ⟨by decide, claim_C10 (fun x : ℝ => x)
    (Vals.mk 20 40 10 ((1 : ℝ)/10) (1/20) (1/10)) (by decide)⟩

/-- C1: for every valid Parameter Set the generator succeeds and returns
exactly `ring_count` polylines; ring `i` carries the gradient sample at
`i/ring_count`, has `bump_count*2 + 1` points with first and last
identical, and is exactly the squircle built at radius `1 + radial_step·i`
with angular offset `offsets[i mod len(offsets)]` and `bump_count*2`
segments. -/
theorem claim_C1 {C : Type} (grad : ℝ → C) (bc rc p : ℕ) (ro rs bw : ℝ)
    (hbc : 2 ≤ bc) (hrc : 1 ≤ rc) (hp2 : p % 2 = 0) (hp4 : 4 ≤ p)
    (hro0 : 0 ≤ ro) (hro2 : ro ≤ 2 * π) (hrs : 0 < rs) (hbw : 0 < bw) :
    ∃ offsets, offsetSchedule p ro = some offsets ∧
    ∃ l, generatePattern grad bc rc p ro rs bw = some l ∧
      l.length = rc ∧
      ∀ i : ℕ, i < rc →
        (l.getD i ([], grad 0)).2 = grad ((i : ℝ) / (rc : ℝ)) ∧
        (l.getD i ([], grad 0)).1.length = bc * 2 + 1 ∧
        (l.getD i ([], grad 0)).1.head? = (l.getD i ([], grad 0)).1.getLast? ∧
        squircle (1 + rs * (i : ℝ)) bw (offsets.getD (i % offsets.length) 0)
          (bc * 2) = some (l.getD i ([], grad 0)).1 := by
  have hnb : 1 ≤ bc * 2 := by omega
  refine ⟨_, offsetSchedule_eq_some ro hp2 hp4, _,
    redrawCore_eq_some grad rc ro rs bw hnb (offsetSchedule_eq_some ro hp2 hp4),
    by simp, fun i hi => ?_⟩
  have hget : ∀ d, ((List.range rc).map (ringOf grad (bc * 2) rc rs bw
      (linspace 0 ro (p / 2) ++ ((linspace ro 0 (p / 2)).drop 1).dropLast))).getD i d
      = ringOf grad (bc * 2) rc rs bw
        (linspace 0 ro (p / 2) ++ ((linspace ro 0 (p / 2)).drop 1).dropLast) i := by
    intro d
    rw [List.getD_eq_getElem _ _ (by simp [hi])]
    simp
  rw [hget]
  unfold ringOf
  refine ⟨rfl, by simp, ?_, (squircle_eq_some _ _ _ hnb)⟩
  obtain ⟨m, hm⟩ : ∃ m, bc * 2 = m + 1 := ⟨bc * 2 - 1, by omega⟩
  rw [hm, List.range_succ_eq_map, List.map_cons, List.getLast?_concat]
  rfl

theorem claim_C1_witness :
    2 ≤ 2 ∧ 1 ≤ 1 ∧ 4 % 2 = 0 ∧ 4 ≤ 4 ∧ (0 : ℝ) ≤ 0 ∧ (0 : ℝ) ≤ 2 * π ∧
    (0 : ℝ) < 1 ∧
    ∃ l, generatePattern (fun x : ℝ => x) 2 1 4 (0 : ℝ) 1 1 = some l ∧
      l.length = 1 := by
  refine ⟨by decide, by decide, by decide, by decide, le_refl 0,
    le_of_lt two_pi_pos, one_pos, ?_⟩
  obtain ⟨o, ho, l, hl, hlen, hrest⟩ :=
    claim_C1 (fun x : ℝ => x) 2 1 4 (0 : ℝ) 1 1 (by decide) (by decide)
      (by decide) (by decide) (le_refl 0) (le_of_lt two_pi_pos) one_pos one_pos
  exact ⟨l, hl, hlen⟩

/-! Evaluation helpers for the concrete example of claim C7. -/

lemma offsetSchedule_four_zero : offsetSchedule 4 (0 : ℝ) = some [0, 0] := by
  rw [offsetSchedule_eq_some (0 : ℝ) (by decide) (by decide)]
  norm_num [linspace, List.range_succ]

lemma squirclePoint_eval_eight (r w : ℝ) (h1 : 0 ≤ r - w / 2)
    (h2 : 0 ≤ r + w / 2) (k : ℕ) :
    squirclePoint r w 0 8 k =
      ((if k % 2 = 0 then r - w / 2 else r + w / 2) * Real.cos ((k : ℝ) * (π / 4)),
       (if k % 2 = 0 then r - w / 2 else r + w / 2) * Real.sin ((k : ℝ) * (π / 4))) := by
  have hangle : (0 : ℝ) + 2 * π * (k : ℝ) / ((8 : ℕ) : ℝ) = (k : ℝ) * (π / 4) := by
    push_cast
    ring
  unfold squirclePoint
  rw [hangle]
  by_cases hk : k % 2 = 0
  · simp only [if_pos hk]
    exact circle_eq_cos_sin _ _ h1
  · simp only [if_neg hk]
    exact circle_eq_cos_sin _ _ h2

lemma ring_eval_eight (r w : ℝ) (h1 : 0 ≤ r - w / 2) (h2 : 0 ≤ r + w / 2)
    {k : ℕ} (hk : k < 8) :
    ((List.range 8).map (squirclePoint r w 0 8) ++
      [squirclePoint r w 0 8 0]).getD k (0, 0) =
      ((if k % 2 = 0 then r - w / 2 else r + w / 2) * Real.cos ((k : ℝ) * (π / 4)),
       (if k % 2 = 0 then r - w / 2 else r + w / 2) * Real.sin ((k : ℝ) * (π / 4))) := by
  rw [List.getD_append _ _ _ _ (by simp [hk])]
  rw [List.getD_eq_getElem _ _ (by simp [hk])]
  simp only [List.getElem_map, List.getElem_range]
  exact squirclePoint_eval_eight r w h1 h2 k

lemma ring_closure_eight (r w : ℝ) :
    ((List.range 8).map (squirclePoint r w 0 8) ++
      [squirclePoint r w 0 8 0]).getD 8 (0, 0) =
      ((List.range 8).map (squirclePoint r w 0 8) ++
        [squirclePoint r w 0 8 0]).getD 0 (0, 0) := by
  have h0 : ((List.range 8).map (squirclePoint r w 0 8) ++
      [squirclePoint r w 0 8 0]).getD 0 (0, 0) = squirclePoint r w 0 8 0 := by
    rw [List.getD_append _ _ _ _ (by simp)]
    rw [List.getD_eq_getElem _ _ (by simp)]
    simp
  rw [h0, List.getD_append_right _ _ _ _ (by simp)]
  simp

/-- C7: for the Parameter Set {bump_count=4, ring_count=2,
rotation_period=4, rotation_offset=0, radial_step=1/10, bump_width=1/10},
the schedule is `[0, 0]` (every ring's angular offset is 0) and the
generator produces exactly two 9-point polylines sampled at 45° (π/4)
increments starting at angle 0: the first alternating between radii 19/20
and 21/20 (1 ± 1/20), the second between 21/20 and 23/20 (11/10 ± 1/20),
each closed by repeating its first point, with colours sampled at 0 and
1/2. -/
theorem claim_C7 {C : Type} (grad : ℝ → C) :
    offsetSchedule 4 (0 : ℝ) = some [0, 0] ∧
    ∃ l, generatePattern grad 4 2 4 0 (1/10) (1/10) = some l ∧
      l.length = 2 ∧
      (l.getD 0 ([], grad 0)).2 = grad 0 ∧
      (l.getD 1 ([], grad 0)).2 = grad (1/2) ∧
      (l.getD 0 ([], grad 0)).1.length = 9 ∧
      (l.getD 1 ([], grad 0)).1.length = 9 ∧
      (∀ k : ℕ, k < 8 → (l.getD 0 ([], grad 0)).1.getD k (0, 0) =
        ((if k % 2 = 0 then (19 : ℝ)/20 else 21/20) * Real.cos ((k : ℝ) * (π / 4)),
         (if k % 2 = 0 then (19 : ℝ)/20 else 21/20) * Real.sin ((k : ℝ) * (π / 4)))) ∧
      (∀ k : ℕ, k < 8 → (l.getD 1 ([], grad 0)).1.getD k (0, 0) =
        ((if k % 2 = 0 then (21 : ℝ)/20 else 23/20) * Real.cos ((k : ℝ) * (π / 4)),
         (if k % 2 = 0 then (21 : ℝ)/20 else 23/20) * Real.sin ((k : ℝ) * (π / 4)))) ∧
      (l.getD 0 ([], grad 0)).1.getD 8 (0, 0) = (l.getD 0 ([], grad 0)).1.getD 0 (0, 0) ∧
      (l.getD 1 ([], grad 0)).1.getD 8 (0, 0) = (l.getD 1 ([], grad 0)).1.getD 0 (0, 0) := by
  have hgen : generatePattern grad 4 2 4 0 (1/10) (1/10) =
      some ((List.range 2).map (ringOf grad (4 * 2) 2 (1/10) (1/10) [0, 0])) :=
    redrawCore_eq_some grad 2 (0 : ℝ) (1/10) (1/10) (by norm_num)
      offsetSchedule_four_zero
  have hlist : (List.range 2).map (ringOf grad (4 * 2) 2 (1/10) (1/10) [0, 0]) =
      [ringOf grad (4 * 2) 2 (1/10) (1/10) [0, 0] 0,
       ringOf grad (4 * 2) 2 (1/10) (1/10) [0, 0] 1] := by
    simp [List.range_succ]
  have e0 : ringOf grad (4 * 2) 2 (1/10) (1/10) [0, 0] 0 =
      ((List.range 8).map (squirclePoint 1 (1/10) 0 8) ++
        [squirclePoint 1 (1/10) 0 8 0], grad 0) := by
    unfold ringOf
    norm_num
  have e1 : ringOf grad (4 * 2) 2 (1/10) (1/10) [0, 0] 1 =
      ((List.range 8).map (squirclePoint (11/10) (1/10) 0 8) ++
        [squirclePoint (11/10) (1/10) 0 8 0], grad (1/2)) := by
    unfold ringOf
    norm_num [List.getD_cons_succ, List.getD_cons_zero]
  have g0 : ∀ d : List (ℝ × ℝ) × C,
      ((List.range 2).map (ringOf grad (4 * 2) 2 (1/10) (1/10) [0, 0])).getD 0 d =
      ((List.range 8).map (squirclePoint 1 (1/10) 0 8) ++
        [squirclePoint 1 (1/10) 0 8 0], grad 0) := by
    intro d
    rw [hlist, e0]
    rfl
  have g1 : ∀ d : List (ℝ × ℝ) × C,
      ((List.range 2).map (ringOf grad (4 * 2) 2 (1/10) (1/10) [0, 0])).getD 1 d =
      ((List.range 8).map (squirclePoint (11/10) (1/10) 0 8) ++
        [squirclePoint (11/10) (1/10) 0 8 0], grad (1/2)) := by
    intro d
    rw [hlist, e1]
    rfl
  refine ⟨offsetSchedule_four_zero, _, hgen, by rw [hlist]; rfl,
    by rw [g0], by rw [g1], by rw [g0]; simp, by rw [g1]; simp,
    ?_, ?_, by rw [g0]; exact ring_closure_eight 1 (1/10),
    by rw [g1]; exact ring_closure_eight (11/10) (1/10)⟩
  · intro k hk
    have hv := ring_eval_eight 1 (1/10) (by norm_num) (by norm_num) hk
    rw [g0, hv]
    norm_num
  · intro k hk
    have hv := ring_eval_eight (11/10) (1/10) (by norm_num) (by norm_num) hk
    rw [g1, hv]
    norm_num

end SLZ
